import Mathlib

/-!
# Verification of the clana confusion-matrix optimizer

Shallow embedding of `src/clana/visualize_cm.py` (the simulated-annealing
core: `calculate_weight_matrix`, `calculate_score`, `swap`, `swap_1d`,
`move`, `move_1d`, `apply_permutation`, `generate_permutation`,
`simulated_annealing`).

Modelling conventions:
* A numpy `n × n` matrix is a function `ℕ → ℕ → ℚ`; only the entries with
  both indices `< n` are meaningful.  A permutation array is `ℕ → ℕ`.
  Python floats are idealized as exact rationals, and the single
  transcendental operation (`np.exp` inside the Metropolis threshold) is
  idealized as `Real.exp`.
* In-place mutation becomes explicit state passing: each transform returns
  the new array value.
* `random.random()` / `random.randint` draws are read off two oracle
  tapes (one of rationals, one of naturals) with explicit cursors; a
  `randint lo hi` draw maps a raw tape value into `[lo, hi]` by `lo + raw
  % (hi + 1 - lo)`, so every admissible draw sequence of the Python
  program corresponds to some tape and every tape yields in-range draws.
* The rejection-sampling `while` loops of `generate_permutation`
  terminate only with probability 1 in Python; the model bounds each of
  them with fuel and returns `none` when the bound is hit (in particular
  on every tape on which the Python loop would never exit).  All positive
  theorems about runs are therefore conditioned on a normal (`some`/`.ok`)
  return, which is exactly the set of runs in which the Python call
  returns.
-/

namespace Clana

/-- The random source: a tape of `random.random()` results and a tape of
raw values backing `random.randint` draws, each read at an explicit
cursor.  Quantifying over all tapes covers every possible draw sequence. -/
structure Tape where
  floats : ℕ → ℚ
  ints : ℕ → ℕ

/-- `random.randint(lo, hi)` (both ends inclusive) realized from one raw
tape value: `lo + raw % (hi + 1 - lo)`.  For `lo ≤ hi` the result is
always in `[lo, hi]`, and every value of that range is realizable. -/
def randint (raw lo hi : ℕ) : ℕ :=
  lo + raw % (hi + 1 - lo)

/-- Python's `int(...)` on a rational value: truncation toward zero. -/
def py_int (q : ℚ) : ℤ :=
  if 0 ≤ q then ⌊q⌋ else ⌈q⌉

/-- `calculate_weight_matrix(n)`: base weight `|i - j|`, and off the
diagonal the tie-breaking term `(i + j) * 0.01` is added. -/
def calculate_weight_matrix (n : ℕ) : ℕ → ℕ → ℚ :=
  fun i j => if i = j then |(i : ℚ) - (j : ℚ)|
    else |(i : ℚ) - (j : ℚ)| + ((i : ℚ) + (j : ℚ)) * 0.01

/-- `calculate_score(cm, weights)`: `int(np.tensordot(cm, weights,
axes=((0,1),(0,1))))`, the elementwise product-sum over both axes,
truncated to an integer. -/
def calculate_score (n : ℕ) (cm weights : ℕ → ℕ → ℚ) : ℤ :=
  py_int (∑ i in Finset.range n, ∑ j in Finset.range n, cm i j * weights i j)

/-- Index action of exchanging `i` and `j`. -/
def swapIdx (i j k : ℕ) : ℕ :=
  if k = i then j else if k = j then i else k

/-- `swap(cm, i, j)`: first the columns `i`,`j` are exchanged (through a
copy of column `i`), then the rows, matching the two in-place column/row
assignments of the source. -/
def swap (cm : ℕ → ℕ → ℚ) (i j : ℕ) : ℕ → ℕ → ℚ :=
  let cols : ℕ → ℕ → ℚ := fun a b => cm a (swapIdx i j b)
  fun a b => cols (swapIdx i j a) b

/-- `swap_1d(perm, i, j)`: the simultaneous assignment
`perm[i], perm[j] = perm[j], perm[i]`. -/
def swap_1d (perm : ℕ → ℕ) (i j : ℕ) : ℕ → ℕ :=
  fun k => if k = i then perm j else if k = j then perm i else perm k

/-- `apply_permutation(cm, perm) = cm[perm].transpose()[perm].transpose()`,
i.e. the matrix with entries `cm[perm[a]][perm[b]]`; builds a new matrix. -/
def apply_permutation (cm : ℕ → ℕ → ℚ) (perm : ℕ → ℕ) : ℕ → ℕ → ℚ :=
  fun a b => cm (perm a) (perm b)

/-- Result of an in-place transform that may raise: `raised` is true when
the `ValueError` fires, and `state` is the value of the mutated argument
when the function finishes (the raise precedes any mutation in the
source, so on a raise `state` is the unchanged input). -/
structure MoveResult (α : Type) where
  raised : Bool
  state : α

/-- The pair of index lists used by `move` / `move_1d`: `p_new` as in the
source (concatenation of two `range`s), `p_old = sorted(p_new)`. -/
def movePNew (from_start from_end insert_pos : ℕ) : List ℕ :=
  if from_end < insert_pos then
    List.range' (from_end + 1) (insert_pos - from_end) ++
      List.range' from_start (from_end + 1 - from_start)
  else
    List.range' from_start (from_end + 1 - from_start) ++
      List.range' insert_pos (from_start - insert_pos)

/-- The numpy fancy assignment `a[p_old] = a[p_new]` (with the right-hand
side gathered from the original array): position `p_old[t]` receives the
original value at `p_new[t]` (on duplicate targets the last pair wins,
numpy's scatter order), every other position keeps its value. -/
def npLookup (l : List (ℕ × ℕ)) (k : ℕ) : ℕ :=
  l.foldl (fun acc p => if p.1 = k then p.2 else acc) k

/-- See `npLookup`: the scattered array as a function. -/
def npAssign {α : Type} (v : ℕ → α) (p_old p_new : List ℕ) : ℕ → α :=
  fun k => v (npLookup (p_old.zip p_new) k)

/-- `move_1d(perm, from_start, from_end, insert_pos)`: raises iff
`insert_pos` is neither left of `from_start` nor right of `from_end`;
otherwise performs `perm[p_old] = perm[p_new]`. -/
def move_1d (perm : ℕ → ℕ) (from_start from_end insert_pos : ℕ) :
    MoveResult (ℕ → ℕ) :=
  if ¬(insert_pos < from_start ∨ from_end < insert_pos) then
    ⟨true, perm⟩
  else
    let p_new := movePNew from_start from_end insert_pos
    let p_old := p_new.insertionSort (· ≤ ·)
    ⟨false, npAssign perm p_old p_new⟩

/-- `move(cm, from_start, from_end, insert_pos)`: same guard and index
lists as `move_1d`; then the column assignment `cm[:, p_old] = cm[:,
p_new]` followed by the row assignment `cm[p_old, :] = cm[p_new, :]` on
the column-updated matrix. -/
def move (cm : ℕ → ℕ → ℚ) (from_start from_end insert_pos : ℕ) :
    MoveResult (ℕ → ℕ → ℚ) :=
  if ¬(insert_pos < from_start ∨ from_end < insert_pos) then
    ⟨true, cm⟩
  else
    let p_new := movePNew from_start from_end insert_pos
    let p_old := p_new.insertionSort (· ≤ ·)
    let cols : ℕ → ℕ → ℚ := fun a => npAssign (cm a) p_old p_new
    ⟨false, npAssign cols p_old p_new⟩

/-- Ghost record of the transform `generate_permutation` chose and the
parameters it passed to `swap`/`swap_1d` or `move`/`move_1d`. -/
inductive MoveDesc where
  | swapMove (i j : ℕ)
  | blockMove (from_start from_end insert_pos : ℕ)
  deriving DecidableEq

/-- Return value of `generate_permutation`: the new permutation, the
mutated scratch matrix, the `make_swap` flag the source returns, the new
tape cursors, and the ghost `desc` of the parameters used. -/
structure GPResult where
  perm : ℕ → ℕ
  cm : ℕ → ℕ → ℚ
  make_swap : Bool
  fidx : ℕ
  iidx : ℕ
  desc : MoveDesc

/-- The loop `while j == i: j = random.randint(0, hi)`, entered with
`j = i`, bounded by fuel; returns the found `j` and the cursor after it. -/
def drawNeLoop (ints : ℕ → ℕ) (i hi : ℕ) : ℕ → ℕ → ℕ → Option (ℕ × ℕ)
  | j, iidx, fuel =>
    if j ≠ i then some (j, iidx)
    else match fuel with
      | 0 => none
      | fuel + 1 => drawNeLoop ints i hi (randint (ints iidx) 0 hi) (iidx + 1) fuel

/-- The loop `while block_len >= n - 1`, which redraws
`from_start = randint(0, n-3)`, `from_end = randint(from_start+1, n-2)`
and sets `block_len = from_start - from_end` (an integer, hence negative
after any draw); returns `(from_start, from_end, cursor)`. -/
def blockLenLoop (ints : ℕ → ℕ) (n : ℕ) :
    ℤ → ℕ → ℕ → ℕ → ℕ → Option (ℕ × ℕ × ℕ)
  | block_len, from_start, from_end, iidx, fuel =>
    if block_len ≥ (n : ℤ) - 1 then
      match fuel with
      | 0 => none
      | fuel + 1 =>
        let fs := randint (ints iidx) 0 (n - 3)
        let fe := randint (ints (iidx + 1)) (fs + 1) (n - 2)
        blockLenLoop ints n ((fs : ℤ) - (fe : ℤ)) fs fe (iidx + 2) fuel
    else some (from_start, from_end, iidx)

/-- The loop `while not (insert_pos < from_start or insert_pos >
from_end): insert_pos = random.randint(0, n - 1)`, entered with
`insert_pos = from_start`; returns the found position and the cursor. -/
def insertPosLoop (ints : ℕ → ℕ) (from_start from_end n : ℕ) :
    ℕ → ℕ → ℕ → Option (ℕ × ℕ)
  | insert_pos, iidx, fuel =>
    if insert_pos < from_start ∨ from_end < insert_pos then some (insert_pos, iidx)
    else match fuel with
      | 0 => none
      | fuel + 1 =>
        insertPosLoop ints from_start from_end n
          (randint (ints iidx) 0 (n - 1)) (iidx + 1) fuel

/-- `generate_permutation(n, current_perm, tmp_cm)` with explicit tape
cursors.  `none` models a call that does not return normally: a
rejection-sampling loop that never finds an admissible value within the
fuel bound `n + 1` (in Python such a loop simply keeps spinning), or a
propagated transform `ValueError` (shown unreachable in `C9`). -/
def generate_permutation (n : ℕ) (tape : Tape) (fidx iidx : ℕ)
    (current_perm : ℕ → ℕ) (tmp_cm : ℕ → ℕ → ℚ) : Option GPResult :=
  let make_swap₀ := tape.floats fidx < mkRat 1 2
  let fidx := fidx + 1
  let make_swap := if n < 3 then true else make_swap₀
  if make_swap then
    let i := randint (tape.ints iidx) 0 (n - 1)
    match drawNeLoop tape.ints i (n - 1) i (iidx + 1) (n + 1) with
    | none => none
    | some (j, iidx) =>
        some ⟨swap_1d current_perm i j, swap tmp_cm i j, make_swap,
          fidx, iidx, .swapMove i j⟩
  else
    match blockLenLoop tape.ints n (n : ℤ) 0 0 iidx (n + 1) with
    | none => none
    | some (from_start, from_end, iidx) =>
      match insertPosLoop tape.ints from_start from_end n from_start iidx (n + 1) with
      | none => none
      | some (insert_pos, iidx) =>
        let mp := move_1d current_perm from_start from_end insert_pos
        let mc := move tmp_cm from_start from_end insert_pos
        if mp.raised ∨ mc.raised then none
        else
          some ⟨mp.state, mc.state, make_swap, fidx, iidx,
            .blockMove from_start from_end insert_pos⟩

/-- The full loop state of `simulated_annealing`, plus the tape cursors
and a ghost counter `iters` of completed loop iterations. -/
structure SAState where
  current_cm : ℕ → ℕ → ℚ
  current_perm : ℕ → ℕ
  current_score : ℤ
  best_cm : ℕ → ℕ → ℚ
  best_perm : ℕ → ℕ
  best_score : ℤ
  temp : ℚ
  fidx : ℕ
  iidx : ℕ
  iters : ℕ

/-- Abnormal outcomes of `simulated_annealing`: the two validation
`ValueError`s, and `exhausted` for a run in which `generate_permutation`
did not return normally (see `generate_permutation`). -/
inductive SAErr where
  | invalid_temp
  | invalid_cooling
  | exhausted
  deriving DecidableEq

/-- The dict `{"cm": best_cm, "perm": best_perm}` the source returns. -/
structure SAReturn where
  cm : ℕ → ℕ → ℚ
  perm : ℕ → ℕ

/-- `min(1, np.exp(-(tmp_score - current_score) / temp))`, idealized over
the reals. -/
noncomputable def hot_prob_thresh (delta : ℤ) (temp : ℚ) : ℝ :=
  min 1 (Real.exp (-(delta : ℝ) / (temp : ℝ)))

/-- The state written by the body of `if chance <= hot_prob_thresh:` in
the accepted case: the candidate becomes current, and best is replaced
exactly when `best_score > tmp_score` (strict improvement). `temp` and
`fidx` are the values after the acceptance-draw phase. -/
def sa_accept (st : SAState) (g : GPResult) (tmp_score : ℤ) (temp : ℚ)
    (fidx : ℕ) : SAState :=
  { current_cm := g.cm, current_perm := g.perm, current_score := tmp_score,
    best_cm := if st.best_score > tmp_score then g.cm else st.best_cm,
    best_perm := if st.best_score > tmp_score then g.perm else st.best_perm,
    best_score := if st.best_score > tmp_score then tmp_score else st.best_score,
    temp := temp, fidx := fidx, iidx := g.iidx, iters := st.iters + 1 }

/-- The state after a rejected candidate: only the temperature, the tape
cursors and the (ghost) iteration counter move. -/
def sa_reject (st : SAState) (g : GPResult) (temp : ℚ) (fidx : ℕ) : SAState :=
  { st with temp := temp, fidx := fidx, iidx := g.iidx, iters := st.iters + 1 }

open Classical in
/-- One iteration of the `for step in range(steps)` body: clone the
current matrix, ask `generate_permutation` for a candidate, score it,
compute the acceptance draw (`1.0` when `deterministic`, else the next
float, with `temp *= 0.99`), and accept iff `chance <= hot_prob_thresh`.
On acceptance the best state is replaced only when
`best_score > tmp_score`. -/
noncomputable def sa_step (n : ℕ) (deterministic : Bool) (tape : Tape)
    (weights : ℕ → ℕ → ℚ) (st : SAState) : Option SAState :=
  match generate_permutation n tape st.fidx st.iidx st.current_perm st.current_cm with
  | none => none
  | some g =>
    let tmp_score := calculate_score n g.cm weights
    let chance : ℚ := if deterministic then 1 else tape.floats g.fidx
    let fidx := if deterministic then g.fidx else g.fidx + 1
    let temp := if deterministic then st.temp else st.temp * 0.99
    if (chance : ℝ) ≤ hot_prob_thresh (tmp_score - st.current_score) temp then
      some (sa_accept st g tmp_score temp fidx)
    else
      some (sa_reject st g temp fidx)

/-- `for step in range(steps)`: `steps` sequenced iterations of
`sa_step`, aborting only if an iteration does not return normally. -/
noncomputable def sa_loop (n : ℕ) (deterministic : Bool) (tape : Tape)
    (weights : ℕ → ℕ → ℚ) : ℕ → SAState → Option SAState
  | 0, st => some st
  | steps + 1, st =>
    match sa_step n deterministic tape weights st with
    | none => none
    | some st' => sa_loop n deterministic tape weights steps st'

/-- The state after the initialization phase of `simulated_annealing`:
default the permutation to `range(n)` (the identity), apply it to the
input matrix, score, and let both current and best be that state. -/
def sa_init (n : ℕ) (cm : ℕ → ℕ → ℚ) (perm : Option (ℕ → ℕ)) (temp : ℚ) : SAState :=
  let p := perm.getD id
  let cm' := apply_permutation cm p
  let s := calculate_score n cm' (calculate_weight_matrix n)
  ⟨cm', p, s, cm', p, s, temp, 0, 0, 0⟩

/-- `simulated_annealing` up to (not including) building the returned
dict: validation of `temp` and `cooling_factor`, initialization, then the
step loop; returns the final loop state.  The `score` callable is its
default `calculate_score`. -/
noncomputable def sa_run (n : ℕ) (cm : ℕ → ℕ → ℚ) (perm : Option (ℕ → ℕ))
    (steps : ℕ) (temp cooling_factor : ℚ) (deterministic : Bool)
    (tape : Tape) : Except SAErr SAState :=
  if temp ≤ 0 then .error .invalid_temp
  else if cooling_factor ≤ 0 ∨ 1 ≤ cooling_factor then .error .invalid_cooling
  else
    match sa_loop n deterministic tape (calculate_weight_matrix n) steps
        (sa_init n cm perm temp) with
    | none => .error .exhausted
    | some st => .ok st

/-- `simulated_annealing(...)`: the returned dict
`{"cm": best_cm, "perm": best_perm}`. -/
noncomputable def simulated_annealing (n : ℕ) (cm : ℕ → ℕ → ℚ)
    (perm : Option (ℕ → ℕ)) (steps : ℕ) (temp cooling_factor : ℚ)
    (deterministic : Bool) (tape : Tape) : Except SAErr SAReturn :=
  (sa_run n cm perm steps temp cooling_factor deterministic tape).map
    (fun st => ⟨st.best_cm, st.best_perm⟩)

/-! ## Concrete matrices used in examples and witnesses -/

/-- The docstring matrix `[[0, 1, 2], [3, 4, 5], [6, 7, 8]]` (entry
`(i, j)` is `3 * i + j`). -/
def cm_example : ℕ → ℕ → ℚ :=
  fun i j => ((3 * i + j : ℕ) : ℚ)

/-! ## Theorems -/

/-- C7: for `from_start ≤ from_end`, `move` and `move_1d` raise the
documented `ValueError` exactly when `insert_pos` lies inside
`[from_start, from_end]`, and on a raise the argument is returned
unchanged (the check precedes the mutation). -/
theorem move_raises_iff (perm : ℕ → ℕ) (cm : ℕ → ℕ → ℚ)
    (from_start from_end insert_pos : ℕ) (hle : from_start ≤ from_end) :
    ((move_1d perm from_start from_end insert_pos).raised = true ↔
      from_start ≤ insert_pos ∧ insert_pos ≤ from_end) ∧
    ((move cm from_start from_end insert_pos).raised = true ↔
      from_start ≤ insert_pos ∧ insert_pos ≤ from_end) ∧
    ((move_1d perm from_start from_end insert_pos).raised = true →
      (move_1d perm from_start from_end insert_pos).state = perm) ∧
    ((move cm from_start from_end insert_pos).raised = true →
      (move cm from_start from_end insert_pos).state = cm) := by
  by_cases h : insert_pos < from_start ∨ from_end < insert_pos
  · refine ⟨?_, ?_, ?_, ?_⟩ <;> simp [move_1d, move, h] <;> omega
  · refine ⟨?_, ?_, ?_, ?_⟩ <;> simp [move_1d, move, h] <;> omega

/-- C7 witness: a concrete raising call (`insert_pos = 1` inside
`[1, 2]`) on the identity permutation and the docstring matrix. -/
theorem move_raises_iff_witness :
    (((move_1d id 1 2 1).raised = true ↔ 1 ≤ 1 ∧ 1 ≤ 2) ∧
      ((move cm_example 1 2 1).raised = true ↔ 1 ≤ 1 ∧ 1 ≤ 2) ∧
      ((move_1d id 1 2 1).raised = true → (move_1d id 1 2 1).state = id) ∧
      ((move cm_example 1 2 1).raised = true →
        (move cm_example 1 2 1).state = cm_example)) :=
  move_raises_iff id cm_example 1 2 1 (by decide)

/-- C8: the score is the elementwise product-sum truncated to an
integer; on the docstring matrix with the `n = 3` weight matrix the
exact sum is `32.56 = 814/25` and the score is `32`. -/
theorem calculate_score_example :
    (∑ i in Finset.range 3, ∑ j in Finset.range 3,
        cm_example i j * calculate_weight_matrix 3 i j) = 814 / 25 ∧
    py_int (814 / 25) = 32 ∧
    calculate_score 3 cm_example (calculate_weight_matrix 3) = 32 := by
  refine ⟨?_, ?_, ?_⟩
  · simp [Finset.sum_range_succ, cm_example, calculate_weight_matrix]
    norm_num
  · norm_num [py_int]
  · have : (∑ i in Finset.range 3, ∑ j in Finset.range 3,
        cm_example i j * calculate_weight_matrix 3 i j) = 814 / 25 := by
      simp [Finset.sum_range_succ, cm_example, calculate_weight_matrix]
      norm_num
    rw [calculate_score, this]
    norm_num [py_int]

/-- `randint` draws are in range: `lo ≤ randint raw lo hi`, and
`randint raw lo hi ≤ hi` whenever `lo ≤ hi`. -/
lemma randint_mem (raw lo hi : ℕ) (h : lo ≤ hi) :
    lo ≤ randint raw lo hi ∧ randint raw lo hi ≤ hi := by
  unfold randint
  have h1 : 0 < hi + 1 - lo := by omega
  have h2 : raw % (hi + 1 - lo) < hi + 1 - lo := Nat.mod_lt _ h1
  omega

/-- The first execution of the `while block_len >= n - 1` body: with the
entry value `block_len = n` the guard holds, one pair
`(from_start, from_end)` is drawn, and the recomputed
`block_len = from_start - from_end` is negative, so the loop stops. -/
lemma blockLenLoop_first (ints : ℕ → ℕ) (n iidx fuel : ℕ)
    (hn : 3 ≤ n) (hf : 2 ≤ fuel) :
    blockLenLoop ints n (n : ℤ) 0 0 iidx fuel =
      some (randint (ints iidx) 0 (n - 3),
        randint (ints (iidx + 1)) (randint (ints iidx) 0 (n - 3) + 1) (n - 2),
        iidx + 2) := by
  obtain ⟨fuel, rfl⟩ : ∃ f, fuel = f + 2 := ⟨fuel - 2, by omega⟩
  rw [blockLenLoop]
  have hg : (n : ℤ) ≥ (n : ℤ) - 1 := by omega
  rw [if_pos hg]
  set fs := randint (ints iidx) 0 (n - 3) with hfs
  set fe := randint (ints (iidx + 1)) (fs + 1) (n - 2) with hfe
  have hfe1 : fs + 1 ≤ fe := by
    have := randint_mem (ints (iidx + 1)) (fs + 1) (n - 2) (by
      have := randint_mem (ints iidx) 0 (n - 3) (Nat.zero_le _)
      omega)
    exact this.1
  rw [blockLenLoop]
  have hg2 : ¬((fs : ℤ) - (fe : ℤ) ≥ (n : ℤ) - 1) := by
    have : (fs : ℤ) + 1 ≤ (fe : ℤ) := by exact_mod_cast hfe1
    omega
  rw [if_neg hg2]

/-- C10: for every `n ≥ 3` and every tape, the block-length resampling
loop of `generate_permutation` executes its body exactly once: the first
drawn pair `(from_start, from_end)` is returned, exactly two `randint`
draws are consumed, and the recomputed `block_len` is negative. -/
theorem block_len_loop_runs_once (ints : ℕ → ℕ) (n iidx fuel : ℕ)
    (hn : 3 ≤ n) (hf : 2 ≤ fuel) :
    blockLenLoop ints n (n : ℤ) 0 0 iidx fuel =
      some (randint (ints iidx) 0 (n - 3),
        randint (ints (iidx + 1)) (randint (ints iidx) 0 (n - 3) + 1) (n - 2),
        iidx + 2) ∧
    ((randint (ints iidx) 0 (n - 3) : ℤ) -
      (randint (ints (iidx + 1)) (randint (ints iidx) 0 (n - 3) + 1) (n - 2) : ℤ)) < 0 := by
  refine ⟨blockLenLoop_first ints n iidx fuel hn hf, ?_⟩
  have h1 := randint_mem (ints iidx) 0 (n - 3) (Nat.zero_le _)
  have h2 := randint_mem (ints (iidx + 1))
    (randint (ints iidx) 0 (n - 3) + 1) (n - 2) (by omega)
  have := h2.1
  omega

/-- C10 witness: `n = 3`, the all-zero raw tape, cursor `0`, fuel `4`
(the fuel `generate_permutation` uses): the loop returns
`(from_start, from_end) = (0, 1)` after one body execution. -/
theorem block_len_loop_runs_once_witness :
    blockLenLoop (fun _ => 0) 3 (3 : ℤ) 0 0 0 4 =
      some (randint 0 0 0, randint 0 (randint 0 0 0 + 1) 1, 0 + 2) ∧
    ((randint 0 0 0 : ℤ) - (randint 0 (randint 0 0 0 + 1) 1 : ℤ)) < 0 :=
  block_len_loop_runs_once (fun _ => 0) 3 0 4 (by decide) (by decide)

/-- A normal exit of the `while j == i` loop returns `j ≠ i`. -/
lemma drawNeLoop_ne (ints : ℕ → ℕ) (i hi : ℕ) :
    ∀ fuel j0 ii0 j ii, drawNeLoop ints i hi j0 ii0 fuel = some (j, ii) → j ≠ i := by
  intro fuel
  induction fuel with
  | zero =>
    intro j0 ii0 j ii h
    rw [drawNeLoop] at h
    by_cases hj : j0 ≠ i
    · simp [hj] at h
      omega
    · simp [hj] at h
  | succ f ih =>
    intro j0 ii0 j ii h
    rw [drawNeLoop] at h
    by_cases hj : j0 ≠ i
    · simp [hj] at h
      omega
    · simp [hj] at h
      exact ih _ _ _ _ h

/-- A normal exit of the `while not (insert_pos < from_start or
insert_pos > from_end)` loop returns a position outside the block. -/
lemma insertPosLoop_outside (ints : ℕ → ℕ) (from_start from_end n : ℕ) :
    ∀ fuel ip0 ii0 ip ii,
      insertPosLoop ints from_start from_end n ip0 ii0 fuel = some (ip, ii) →
      ip < from_start ∨ from_end < ip := by
  intro fuel
  induction fuel with
  | zero =>
    intro ip0 ii0 ip ii h
    rw [insertPosLoop] at h
    by_cases hj : ip0 < from_start ∨ from_end < ip0
    · simp [hj] at h
      omega
    · simp [hj] at h
  | succ f ih =>
    intro ip0 ii0 ip ii h
    rw [insertPosLoop] at h
    by_cases hj : ip0 < from_start ∨ from_end < ip0
    · simp [hj] at h
      omega
    · simp [hj] at h
      exact ih _ _ _ _ h

/-- C9: whenever `generate_permutation` returns normally, the parameters
it passed to the transforms were valid: for `n < 3` the move is always a
swap of two distinct indices, and a block move has
`from_start < from_end ≤ n - 2` with `insert_pos` outside
`[from_start, from_end]`, so neither `move_1d` nor `move` raised. -/
theorem generator_parameters_valid (n : ℕ) (tape : Tape) (fidx iidx : ℕ)
    (perm : ℕ → ℕ) (cm : ℕ → ℕ → ℚ) (g : GPResult)
    (hg : generate_permutation n tape fidx iidx perm cm = some g) :
    (n < 3 → ∃ i j, g.desc = .swapMove i j ∧ j ≠ i) ∧
    (∀ i j, g.desc = .swapMove i j → j ≠ i) ∧
    (∀ from_start from_end insert_pos,
      g.desc = .blockMove from_start from_end insert_pos →
      from_start < from_end ∧ from_end ≤ n - 2 ∧
      (insert_pos < from_start ∨ from_end < insert_pos) ∧
      (move_1d perm from_start from_end insert_pos).raised = false ∧
      (move cm from_start from_end insert_pos).raised = false) := by
  rw [generate_permutation] at hg
  by_cases hn3 : n < 3
  · simp only [if_pos hn3, if_true] at hg
    cases hdr : drawNeLoop tape.ints (randint (tape.ints iidx) 0 (n - 1)) (n - 1)
        (randint (tape.ints iidx) 0 (n - 1)) (iidx + 1) (n + 1) with
    | none => rw [hdr] at hg; exact absurd hg (by simp)
    | some p =>
      obtain ⟨j, ii⟩ := p
      rw [hdr] at hg
      simp only [Option.some.injEq] at hg
      subst hg
      have hne := drawNeLoop_ne tape.ints _ _ _ _ _ _ _ hdr
      refine ⟨fun _ => ⟨_, _, rfl, hne⟩, ?_, ?_⟩
      · intro i' j' h'
        simp only [MoveDesc.swapMove.injEq] at h'
        obtain ⟨h1, h2⟩ := h'
        subst h1; subst h2
        exact hne
      · intro fs fe ip h'
        exact absurd h' (by simp)
  · simp only [if_neg hn3] at hg
    have hn : 3 ≤ n := by omega
    by_cases hms : tape.floats fidx < mkRat 1 2
    · simp only [hms, decide_True, eq_self_iff_true, if_true] at hg
      cases hdr : drawNeLoop tape.ints (randint (tape.ints iidx) 0 (n - 1)) (n - 1)
          (randint (tape.ints iidx) 0 (n - 1)) (iidx + 1) (n + 1) with
      | none => rw [hdr] at hg; exact absurd hg (by simp)
      | some p =>
        obtain ⟨j, ii⟩ := p
        rw [hdr] at hg
        simp only [Option.some.injEq] at hg
        subst hg
        have hne := drawNeLoop_ne tape.ints _ _ _ _ _ _ _ hdr
        refine ⟨fun h => absurd h (by omega), ?_, ?_⟩
        · intro i' j' h'
          simp only [MoveDesc.swapMove.injEq] at h'
          obtain ⟨h1, h2⟩ := h'
          subst h1; subst h2
          exact hne
        · intro fs fe ip h'
          exact absurd h' (by simp)
    · simp only [hms, decide_False, Bool.false_eq_true, if_false] at hg
      rw [blockLenLoop_first tape.ints n iidx (n + 1) hn (by omega)] at hg
      simp only [Option.some.injEq] at hg
      set fs := randint (tape.ints iidx) 0 (n - 3) with hfs
      set fe := randint (tape.ints (iidx + 1)) (fs + 1) (n - 2) with hfe
      have hfs_le : fs ≤ n - 3 :=
        (randint_mem (tape.ints iidx) 0 (n - 3) (Nat.zero_le _)).2
      have hfe_mem := randint_mem (tape.ints (iidx + 1)) (fs + 1) (n - 2) (by omega)
      cases hip : insertPosLoop tape.ints fs fe n fs (iidx + 2) (n + 1) with
      | none => rw [hip] at hg; exact absurd hg (by simp)
      | some p =>
        obtain ⟨ip, ii⟩ := p
        rw [hip] at hg
        have hout := insertPosLoop_outside tape.ints fs fe n _ _ _ _ _ hip
        have hraise1 : (move_1d perm fs fe ip).raised = false := by
          rw [move_1d, if_neg (by tauto)]
        have hraise2 : (move cm fs fe ip).raised = false := by
          rw [move, if_neg (by tauto)]
        simp only [hraise1, hraise2, Bool.false_eq_true, or_self, if_false,
          Option.some.injEq] at hg
        subst hg
        refine ⟨fun h => absurd h (by omega), ?_, ?_⟩
        · intro i' j' h'
          exact absurd h' (by simp)
        · intro fs' fe' ip' h'
          simp only [MoveDesc.blockMove.injEq] at h'
          obtain ⟨h1, h2, h3⟩ := h'
          subst h1; subst h2; subst h3
          exact ⟨by omega, hfe_mem.2, hout, hraise1, hraise2⟩

/-- C9 witness: a concrete normal block-move draw (`n = 3`, a tape whose
float is `1` so `make_swap` is false and whose raw ints produce
`from_start = 0`, `from_end = 1`, `insert_pos = 2`): neither transform
raised. -/
theorem generator_parameters_valid_witness :
    (move_1d id 0 1 2).raised = false ∧ (move cm_example 0 1 2).raised = false := by
  have h := generator_parameters_valid 3 ⟨fun _ => 1, fun k => [0, 0, 2].getD k 0⟩
    0 0 id cm_example
    ⟨(move_1d id 0 1 2).state, (move cm_example 0 1 2).state, false, 1, 3,
      .blockMove 0 1 2⟩ (by rfl)
  have h2 := h.2.2 0 1 2 rfl
  exact ⟨h2.2.2.2.1, h2.2.2.2.2⟩

/-- Swapping rows/columns `i`,`j` of a matrix of the form
`apply_permutation cm p` is the same as composing the defining
permutation with the index transposition, i.e. applying `swap_1d p i j`. -/
lemma swap_apply_permutation (cm : ℕ → ℕ → ℚ) (p : ℕ → ℕ) (i j : ℕ) :
    swap (apply_permutation cm p) i j = apply_permutation cm (swap_1d p i j) := by
  funext a b
  simp only [swap, apply_permutation, swap_1d, swapIdx]
  by_cases ha1 : a = i <;> by_cases ha2 : a = j <;>
    by_cases hb1 : b = i <;> by_cases hb2 : b = j <;>
    simp [ha1, ha2, hb1, hb2, apply_ite p]

/-- The block move keeps a matrix of the form `apply_permutation cm p` in
lock-step with the moved permutation: `move` on the matrix equals
`apply_permutation` of `move_1d` on `p` (on a raise both sides are the
unchanged inputs). -/
lemma move_apply_permutation (cm : ℕ → ℕ → ℚ) (p : ℕ → ℕ)
    (from_start from_end insert_pos : ℕ) :
    (move (apply_permutation cm p) from_start from_end insert_pos).state =
      apply_permutation cm ((move_1d p from_start from_end insert_pos).state) := by
  rw [move, move_1d]
  by_cases h : insert_pos < from_start ∨ from_end < insert_pos
  · rw [if_neg (by tauto), if_neg (by tauto)]
    rfl
  · rw [if_pos (by tauto), if_pos (by tauto)]

/-- Whenever `generate_permutation` is handed a matrix in lock-step with
the permutation (`tmp_cm = apply_permutation cm p`) and returns normally,
the candidate matrix it returns is in lock-step with the candidate
permutation. -/
lemma generate_permutation_lockstep (n : ℕ) (tape : Tape) (fidx iidx : ℕ)
    (cm : ℕ → ℕ → ℚ) (p : ℕ → ℕ) (g : GPResult)
    (hg : generate_permutation n tape fidx iidx p (apply_permutation cm p) = some g) :
    g.cm = apply_permutation cm g.perm := by
  rw [generate_permutation] at hg
  simp only [] at hg
  by_cases hms : (if n < 3 then true
      else decide (tape.floats fidx < mkRat 1 2)) = true
  · rw [if_pos hms] at hg
    cases hdr : drawNeLoop tape.ints (randint (tape.ints iidx) 0 (n - 1)) (n - 1)
        (randint (tape.ints iidx) 0 (n - 1)) (iidx + 1) (n + 1) with
    | none => rw [hdr] at hg; exact absurd hg (by simp)
    | some q =>
      obtain ⟨j, ii⟩ := q
      rw [hdr] at hg
      simp only [Option.some.injEq] at hg
      subst hg
      exact (swap_apply_permutation cm p _ j).symm ▸ rfl
  · rw [if_neg hms] at hg
    cases hbl : blockLenLoop tape.ints n (n : ℤ) 0 0 iidx (n + 1) with
    | none => rw [hbl] at hg; exact absurd hg (by simp)
    | some t =>
      obtain ⟨fs, fe, ii2⟩ := t
      rw [hbl] at hg
      cases hip : insertPosLoop tape.ints fs fe n fs ii2 (n + 1) with
      | none =>
        simp only [hip] at hg
        exact absurd hg (by simp)
      | some q =>
        obtain ⟨ip, ii⟩ := q
        simp only [hip] at hg
        by_cases hr : (move_1d p fs fe ip).raised = true ∨
            (move (apply_permutation cm p) fs fe ip).raised = true
        · rw [if_pos hr] at hg
          exact absurd hg (by simp)
        · rw [if_neg hr] at hg
          simp only [Option.some.injEq] at hg
          subst hg
          exact move_apply_permutation cm p fs fe ip

/-- The lock-step invariant of C1: both the current and the best matrix
are the original input matrix reindexed by the corresponding
permutation. -/
def lockstep (cm0 : ℕ → ℕ → ℚ) (st : SAState) : Prop :=
  st.current_cm = apply_permutation cm0 st.current_perm ∧
  st.best_cm = apply_permutation cm0 st.best_perm

/-- Every normal `sa_step` outcome is the accepted or the rejected state
built from a normal `generate_permutation` result (with the temperature
and float cursor updated only in non-deterministic mode). -/
lemma sa_step_cases (n : ℕ) (det : Bool) (tape : Tape) (w : ℕ → ℕ → ℚ)
    (st st' : SAState) (h : sa_step n det tape w st = some st') :
    ∃ g, generate_permutation n tape st.fidx st.iidx st.current_perm
        st.current_cm = some g ∧
      (st' = sa_accept st g (calculate_score n g.cm w)
          (if det then st.temp else st.temp * 0.99)
          (if det then g.fidx else g.fidx + 1) ∨
       st' = sa_reject st g (if det then st.temp else st.temp * 0.99)
          (if det then g.fidx else g.fidx + 1)) := by
  cases det with
  | true =>
    rw [sa_step] at h
    cases hg : generate_permutation n tape st.fidx st.iidx st.current_perm
        st.current_cm with
    | none => rw [hg] at h; exact absurd h (by simp)
    | some g =>
      rw [hg] at h
      simp only [eq_self_iff_true, if_true] at h
      refine ⟨g, rfl, ?_⟩
      simp only [eq_self_iff_true, if_true]
      split at h
      · exact Or.inl (Option.some.inj h).symm
      · exact Or.inr (Option.some.inj h).symm
  | false =>
    rw [sa_step] at h
    cases hg : generate_permutation n tape st.fidx st.iidx st.current_perm
        st.current_cm with
    | none => rw [hg] at h; exact absurd h (by simp)
    | some g =>
      rw [hg] at h
      simp only [Bool.false_eq_true, if_false] at h
      refine ⟨g, rfl, ?_⟩
      simp only [Bool.false_eq_true, if_false]
      split at h
      · exact Or.inl (Option.some.inj h).symm
      · exact Or.inr (Option.some.inj h).symm

/-- One step preserves the lock-step invariant. -/
lemma sa_step_lockstep (n : ℕ) (det : Bool) (tape : Tape) (w : ℕ → ℕ → ℚ)
    (cm0 : ℕ → ℕ → ℚ) (st st' : SAState) (hls : lockstep cm0 st)
    (h : sa_step n det tape w st = some st') : lockstep cm0 st' := by
  obtain ⟨g, hg, hc | hc⟩ := sa_step_cases n det tape w st st' h
  · rw [hls.1] at hg
    have hgcm := generate_permutation_lockstep n tape st.fidx st.iidx cm0
      st.current_perm g hg
    subst hc
    constructor
    · exact hgcm
    · by_cases hb : st.best_score > calculate_score n g.cm w
      · simp only [sa_accept, if_pos hb]
        exact hgcm
      · simp only [sa_accept, if_neg hb]
        exact hls.2
  · subst hc
    exact ⟨hls.1, hls.2⟩

/-- One step preserves `best_score ≤ current_score`. -/
lemma sa_step_best_le (n : ℕ) (det : Bool) (tape : Tape) (w : ℕ → ℕ → ℚ)
    (st st' : SAState) (hbc : st.best_score ≤ st.current_score)
    (h : sa_step n det tape w st = some st') :
    st'.best_score ≤ st'.current_score := by
  obtain ⟨g, _, hc | hc⟩ := sa_step_cases n det tape w st st' h <;> subst hc
  · by_cases hb : st.best_score > calculate_score n g.cm w
    · simp [sa_accept, hb]
    · simp only [sa_accept, if_neg hb]
      omega
  · exact hbc

/-- `best_score` never increases across one step. -/
lemma sa_step_best_mono (n : ℕ) (det : Bool) (tape : Tape) (w : ℕ → ℕ → ℚ)
    (st st' : SAState) (h : sa_step n det tape w st = some st') :
    st'.best_score ≤ st.best_score := by
  obtain ⟨g, _, hc | hc⟩ := sa_step_cases n det tape w st st' h <;> subst hc
  · by_cases hb : st.best_score > calculate_score n g.cm w
    · simp only [sa_accept, if_pos hb]
      omega
    · simp [sa_accept, hb]
  · exact le_refl _

/-- The best state is replaced only on strict improvement: either all
three best fields are untouched, or `best_score` strictly decreased. -/
lemma sa_step_best_strict (n : ℕ) (det : Bool) (tape : Tape) (w : ℕ → ℕ → ℚ)
    (st st' : SAState) (h : sa_step n det tape w st = some st') :
    (st'.best_score = st.best_score ∧ st'.best_cm = st.best_cm ∧
      st'.best_perm = st.best_perm) ∨
    st'.best_score < st.best_score := by
  obtain ⟨g, _, hc | hc⟩ := sa_step_cases n det tape w st st' h <;> subst hc
  · by_cases hb : st.best_score > calculate_score n g.cm w
    · right
      simp only [sa_accept, if_pos hb]
      omega
    · left
      simp [sa_accept, hb]
  · left
    exact ⟨rfl, rfl, rfl⟩

/-- The temperature after one step: unchanged in deterministic mode,
multiplied by `0.99` (once) otherwise. -/
lemma sa_step_temp (n : ℕ) (det : Bool) (tape : Tape) (w : ℕ → ℕ → ℚ)
    (st st' : SAState) (h : sa_step n det tape w st = some st') :
    st'.temp = if det then st.temp else st.temp * 0.99 := by
  obtain ⟨g, _, hc | hc⟩ := sa_step_cases n det tape w st st' h <;> subst hc
  · rfl
  · rfl

/-- The ghost iteration counter advances by exactly one per step. -/
lemma sa_step_iters (n : ℕ) (det : Bool) (tape : Tape) (w : ℕ → ℕ → ℚ)
    (st st' : SAState) (h : sa_step n det tape w st = some st') :
    st'.iters = st.iters + 1 := by
  obtain ⟨g, _, hc | hc⟩ := sa_step_cases n det tape w st st' h <;> subst hc
  · rfl
  · rfl

/-- A property preserved by single steps is preserved by the loop. -/
lemma sa_loop_preserve (n : ℕ) (det : Bool) (tape : Tape) (w : ℕ → ℕ → ℚ)
    (P : SAState → Prop)
    (hP : ∀ st st', P st → sa_step n det tape w st = some st' → P st') :
    ∀ k st st', sa_loop n det tape w k st = some st' → P st → P st' := by
  intro k
  induction k with
  | zero =>
    intro st st' h hp
    rw [sa_loop] at h
    exact (Option.some.inj h) ▸ hp
  | succ k ih =>
    intro st st' h hp
    rw [sa_loop] at h
    cases hs : sa_step n det tape w st with
    | none => rw [hs] at h; exact absurd h (by simp)
    | some st1 =>
      rw [hs] at h
      exact ih st1 st' h (hP st st1 hp hs)

/-- A normal loop run of `k` steps advances the iteration counter by
exactly `k`: no iteration is skipped and none is added. -/
lemma sa_loop_iters (n : ℕ) (det : Bool) (tape : Tape) (w : ℕ → ℕ → ℚ) :
    ∀ k st st', sa_loop n det tape w k st = some st' →
      st'.iters = st.iters + k := by
  intro k
  induction k with
  | zero =>
    intro st st' h
    rw [sa_loop] at h
    rw [(Option.some.inj h).symm]
    rfl
  | succ k ih =>
    intro st st' h
    rw [sa_loop] at h
    cases hs : sa_step n det tape w st with
    | none => rw [hs] at h; exact absurd h (by simp)
    | some st1 =>
      rw [hs] at h
      have h1 := sa_step_iters n det tape w st st1 hs
      have h2 := ih st1 st' h
      omega

/-- Any quantity that never increases across single steps never
increases across the loop. -/
lemma sa_loop_best_mono (n : ℕ) (det : Bool) (tape : Tape) (w : ℕ → ℕ → ℚ) :
    ∀ k st st', sa_loop n det tape w k st = some st' →
      st'.best_score ≤ st.best_score := by
  intro k
  induction k with
  | zero =>
    intro st st' h
    rw [sa_loop] at h
    rw [(Option.some.inj h).symm]
  | succ k ih =>
    intro st st' h
    rw [sa_loop] at h
    cases hs : sa_step n det tape w st with
    | none => rw [hs] at h; exact absurd h (by simp)
    | some st1 =>
      rw [hs] at h
      exact le_trans (ih st1 st' h) (sa_step_best_mono n det tape w st st1 hs)

/-- A normal (`.ok`) return of `sa_run` means both validation checks
passed and the loop ran to completion from the initial state. -/
lemma sa_run_ok (n : ℕ) (cm : ℕ → ℕ → ℚ) (perm : Option (ℕ → ℕ))
    (steps : ℕ) (temp cf : ℚ) (det : Bool) (tape : Tape) (st : SAState)
    (h : sa_run n cm perm steps temp cf det tape = .ok st) :
    ¬temp ≤ 0 ∧ ¬(cf ≤ 0 ∨ 1 ≤ cf) ∧
      sa_loop n det tape (calculate_weight_matrix n) steps
        (sa_init n cm perm temp) = some st := by
  rw [sa_run] at h
  by_cases h1 : temp ≤ 0
  · rw [if_pos h1] at h
    exact absurd h (by simp)
  · rw [if_neg h1] at h
    by_cases h2 : cf ≤ 0 ∨ 1 ≤ cf
    · rw [if_pos h2] at h
      exact absurd h (by simp)
    · rw [if_neg h2] at h
      cases hl : sa_loop n det tape (calculate_weight_matrix n) steps
          (sa_init n cm perm temp) with
      | none => rw [hl] at h; exact absurd h (by simp)
      | some st1 =>
        rw [hl] at h
        simp only [Except.ok.injEq] at h
        refine ⟨h1, h2, ?_⟩
        rw [← h]

/-- The acceptance test at draw `1.0`: `1 ≤ min(1, exp(-delta/temp))`
holds exactly when `delta ≤ 0`, for positive temperature. -/
lemma one_le_hot_prob_thresh_iff (delta : ℤ) (temp : ℚ) (h : 0 < temp) :
    (((1 : ℚ) : ℝ) ≤ hot_prob_thresh delta temp) ↔ delta ≤ 0 := by
  rw [hot_prob_thresh, Rat.cast_one, le_min_iff]
  have htemp : (0 : ℝ) < (temp : ℝ) := by exact_mod_cast h
  constructor
  · intro ⟨_, h2⟩
    rw [Real.one_le_exp_iff] at h2
    have : (0 : ℝ) ≤ -(delta : ℝ) := by
      by_contra hneg
      push_neg at hneg
      have : -(delta : ℝ) / (temp : ℝ) < 0 := div_neg_of_neg_of_pos hneg htemp
      linarith
    have : (delta : ℝ) ≤ 0 := by linarith
    exact_mod_cast this
  · intro hd
    refine ⟨le_refl _, ?_⟩
    rw [Real.one_le_exp_iff]
    have hd' : (delta : ℝ) ≤ 0 := by exact_mod_cast hd
    exact div_nonneg (by linarith) htemp.le

/-- C3: with `deterministic = true`, the acceptance draw is the constant
`1.0`, the temperature is not decayed, and a normal step accepts the
candidate as the new current state exactly when its score is at most the
current score (i.e. when the threshold equals 1): the step result is the
accepted state on `candidate ≤ current` and the rejected state
otherwise — a pure greedy hill-climb. -/
theorem deterministic_is_greedy (n : ℕ) (tape : Tape) (w : ℕ → ℕ → ℚ)
    (st : SAState) (g : GPResult) (htemp : 0 < st.temp)
    (hg : generate_permutation n tape st.fidx st.iidx st.current_perm
      st.current_cm = some g) :
    sa_step n true tape w st =
      some (if calculate_score n g.cm w ≤ st.current_score
        then sa_accept st g (calculate_score n g.cm w) st.temp g.fidx
        else sa_reject st g st.temp g.fidx) := by
  rw [sa_step, hg]
  simp only [eq_self_iff_true, if_true]
  by_cases hacc : calculate_score n g.cm w ≤ st.current_score
  · rw [if_pos hacc, if_pos]
    rw [one_le_hot_prob_thresh_iff _ _ htemp]
    omega
  · rw [if_neg hacc, if_neg]
    rw [one_le_hot_prob_thresh_iff _ _ htemp]
    omega

/-- C3 witness: on a concrete 2×2 all-zero matrix with the identity
permutation (candidate score `0 ≤ 0`), the deterministic step accepts. -/
theorem deterministic_is_greedy_witness :
    sa_step 2 true ⟨fun _ => 0, fun k => k⟩ (calculate_weight_matrix 2)
      ⟨fun _ _ => 0, id, 0, fun _ _ => 0, id, 0, 100, 0, 0, 0⟩ =
      some (if calculate_score 2 (swap (fun _ _ => 0) 0 1)
          (calculate_weight_matrix 2) ≤ 0
        then sa_accept ⟨fun _ _ => 0, id, 0, fun _ _ => 0, id, 0, 100, 0, 0, 0⟩
          ⟨swap_1d id 0 1, swap (fun _ _ => 0) 0 1, true, 1, 2, .swapMove 0 1⟩
          (calculate_score 2 (swap (fun _ _ => 0) 0 1)
            (calculate_weight_matrix 2)) 100 1
        else sa_reject ⟨fun _ _ => 0, id, 0, fun _ _ => 0, id, 0, 100, 0, 0, 0⟩
          ⟨swap_1d id 0 1, swap (fun _ _ => 0) 0 1, true, 1, 2, .swapMove 0 1⟩
          100 1) :=
  deterministic_is_greedy 2 ⟨fun _ => 0, fun k => k⟩ (calculate_weight_matrix 2)
    ⟨fun _ _ => 0, id, 0, fun _ _ => 0, id, 0, 100, 0, 0, 0⟩
    ⟨swap_1d id 0 1, swap (fun _ _ => 0) 0 1, true, 1, 2, .swapMove 0 1⟩
    (by decide) (by rfl)

/-- C1: the lock-step invariant `matrix = apply_permutation(original,
permutation)` holds for both the current and the best state right after
initialization, is preserved by every normal iteration, holds at any
normal return of the engine loop, and in particular the returned best
matrix is `apply_permutation` of the caller's original matrix by the
returned best permutation — for every square input, initial permutation
and tape. -/
theorem lock_step_invariant (n : ℕ) (cm0 : ℕ → ℕ → ℚ) (p0 : Option (ℕ → ℕ))
    (steps : ℕ) (temp cf : ℚ) (det : Bool) (tape : Tape) :
    lockstep cm0 (sa_init n cm0 p0 temp) ∧
    (∀ st st', lockstep cm0 st →
      sa_step n det tape (calculate_weight_matrix n) st = some st' →
      lockstep cm0 st') ∧
    (∀ st, sa_run n cm0 p0 steps temp cf det tape = .ok st → lockstep cm0 st) ∧
    (∀ r, simulated_annealing n cm0 p0 steps temp cf det tape = .ok r →
      r.cm = apply_permutation cm0 r.perm) := by
  have hinit : lockstep cm0 (sa_init n cm0 p0 temp) := ⟨rfl, rfl⟩
  have hstep : ∀ st st', lockstep cm0 st →
      sa_step n det tape (calculate_weight_matrix n) st = some st' →
      lockstep cm0 st' :=
    fun st st' hp hs =>
      sa_step_lockstep n det tape (calculate_weight_matrix n) cm0 st st' hp hs
  have hrun : ∀ st, sa_run n cm0 p0 steps temp cf det tape = .ok st →
      lockstep cm0 st := by
    intro st h
    obtain ⟨_, _, hl⟩ := sa_run_ok n cm0 p0 steps temp cf det tape st h
    exact sa_loop_preserve n det tape (calculate_weight_matrix n)
      (lockstep cm0) hstep steps _ st hl hinit
  refine ⟨hinit, hstep, hrun, ?_⟩
  intro r h
  rw [simulated_annealing] at h
  cases hr : sa_run n cm0 p0 steps temp cf det tape with
  | error e =>
    rw [hr] at h
    exact absurd h (by simp [Except.map])
  | ok st =>
    rw [hr] at h
    simp only [Except.map, Except.ok.injEq] at h
    rw [← h]
    exact (hrun st hr).2

/-- C1 witness: a trivial deterministic run (`n = 1`, `steps = 0`) whose
returned dict satisfies `cm = apply_permutation original perm`. -/
theorem lock_step_invariant_witness :
    (⟨apply_permutation (fun _ _ => 1) id, id⟩ : SAReturn).cm =
      apply_permutation (fun _ _ => (1 : ℚ))
        (⟨apply_permutation (fun _ _ => 1) id, id⟩ : SAReturn).perm :=
  (lock_step_invariant 1 (fun _ _ => 1) none 0 100 (mkRat 99 100) true
    ⟨fun _ => 0, fun _ => 0⟩).2.2.2
    ⟨apply_permutation (fun _ _ => 1) id, id⟩ (by rfl)

/-- On a 1×1 matrix the swap-index resampling loop can never find
`j ≠ i`: `randint(0, 0)` is `0` on every raw tape value, so the loop
fails for every fuel bound (in Python: it never exits). -/
lemma drawNeLoop_one_none (ints : ℕ → ℕ) :
    ∀ fuel iidx, drawNeLoop ints 0 0 0 iidx fuel = none := by
  intro fuel
  induction fuel with
  | zero =>
    intro iidx
    rw [drawNeLoop]
    simp [randint]
  | succ f ih =>
    intro iidx
    rw [drawNeLoop]
    simpa [randint, Nat.mod_one] using ih (iidx + 1)

/-- Hence `generate_permutation` never returns normally for `n = 1`,
independently of the tape and of any fuel bound. -/
lemma generate_permutation_one_none (tape : Tape) (fidx iidx : ℕ)
    (p : ℕ → ℕ) (cm : ℕ → ℕ → ℚ) :
    generate_permutation 1 tape fidx iidx p cm = none := by
  rw [generate_permutation]
  simp [randint, Nat.mod_one, drawNeLoop_one_none]

/-- Hence for `n = 1` every run with a positive step budget and valid
parameters ends abnormally (in Python: hangs), on every tape. -/
lemma sa_run_one_exhausted (cm : ℕ → ℕ → ℚ) (p0 : Option (ℕ → ℕ))
    (steps : ℕ) (temp cf : ℚ) (det : Bool) (tape : Tape)
    (htemp : ¬temp ≤ 0) (hcf : ¬(cf ≤ 0 ∨ 1 ≤ cf)) :
    sa_run 1 cm p0 (steps + 1) temp cf det tape = .error .exhausted := by
  rw [sa_run, if_neg htemp, if_neg hcf, sa_loop, sa_step,
    generate_permutation_one_none]

/-- C2 counterexample: on the square non-negative 1×1 matrix `[[1]]`
with step budget `1`, the call does not return: the swap-index
resampling loop `while j == i` can never draw `j ≠ i` because
`randint(0, 0)` is always `0` (in the model every fuel bound is
exhausted; in Python the loop spins forever), so the run ends abnormally
instead of returning a best matrix and permutation. -/
theorem sa_one_by_one_no_return :
    simulated_annealing 1 (fun _ _ => 1) none 1 100 (mkRat 99 100) true
      ⟨fun _ => 0, fun _ => 0⟩ = .error .exhausted := by
  rfl

/-- C2 (amended): whenever `simulated_annealing` returns normally — i.e.
on every tape on which each internal rejection-sampling loop finds an
admissible value, which excludes only the divergent runs such as every
run with `n = 1` and a positive budget — the iteration loop has executed
exactly `steps` times (no convergence detection, no early exit: each
loop level is one `sa_step` `bind`-sequenced with the rest) and the call
returns the best matrix and best permutation of the final state. -/
theorem step_budget_exact (n : ℕ) (cm0 : ℕ → ℕ → ℚ) (p0 : Option (ℕ → ℕ))
    (steps : ℕ) (temp cf : ℚ) (det : Bool) (tape : Tape) :
    (∀ k st, sa_loop n det tape (calculate_weight_matrix n) (k + 1) st =
      (sa_step n det tape (calculate_weight_matrix n) st).bind
        (sa_loop n det tape (calculate_weight_matrix n) k)) ∧
    (∀ st, sa_run n cm0 p0 steps temp cf det tape = .ok st →
      st.iters = steps ∧
      simulated_annealing n cm0 p0 steps temp cf det tape =
        .ok ⟨st.best_cm, st.best_perm⟩) := by
  constructor
  · intro k st
    rw [sa_loop]
    cases hs : sa_step n det tape (calculate_weight_matrix n) st with
    | none => rfl
    | some st1 => rfl
  · intro st h
    obtain ⟨_, _, hl⟩ := sa_run_ok n cm0 p0 steps temp cf det tape st h
    have hit := sa_loop_iters n det tape (calculate_weight_matrix n) steps
      (sa_init n cm0 p0 temp) st hl
    refine ⟨by simpa [sa_init] using hit, ?_⟩
    rw [simulated_annealing, h]
    rfl

/-- C2 witness: a normal zero-step run (`n = 1`, `steps = 0`):
`iters = 0 = steps` and the returned dict is the best state's pair. -/
theorem step_budget_exact_witness :
    (sa_init 1 (fun _ _ => 1) none 100).iters = 0 ∧
    simulated_annealing 1 (fun _ _ => 1) none 0 100 (mkRat 99 100) true
      ⟨fun _ => 0, fun _ => 0⟩ =
      .ok ⟨(sa_init 1 (fun _ _ => 1) none 100).best_cm,
        (sa_init 1 (fun _ _ => 1) none 100).best_perm⟩ :=
  (step_budget_exact 1 (fun _ _ => 1) none 0 100 (mkRat 99 100) true
    ⟨fun _ => 0, fun _ => 0⟩).2 (sa_init 1 (fun _ _ => 1) none 100) (by rfl)

/-- C4: in deterministic mode, `best_score` never increases: across one
step, across any number of loop iterations, and over a whole normal run
relative to the initial state — for every tape and step budget. -/
theorem deterministic_best_monotone (n : ℕ) (cm0 : ℕ → ℕ → ℚ)
    (p0 : Option (ℕ → ℕ)) (steps : ℕ) (temp cf : ℚ) (tape : Tape) :
    (∀ st st', sa_step n true tape (calculate_weight_matrix n) st = some st' →
      st'.best_score ≤ st.best_score) ∧
    (∀ k st st', sa_loop n true tape (calculate_weight_matrix n) k st = some st' →
      st'.best_score ≤ st.best_score) ∧
    (∀ st, sa_run n cm0 p0 steps temp cf true tape = .ok st →
      st.best_score ≤ (sa_init n cm0 p0 temp).best_score) := by
  refine ⟨fun st st' hs => sa_step_best_mono n true tape _ st st' hs,
    fun k st st' hl => sa_loop_best_mono n true tape _ k st st' hl, ?_⟩
  intro st h
  obtain ⟨_, _, hl⟩ := sa_run_ok n cm0 p0 steps temp cf true tape st h
  exact sa_loop_best_mono n true tape _ steps _ st hl

/-- C4 witness: the zero-step run (`n = 1`, `steps = 0`) ends with
`best_score` no larger than the initial one. -/
theorem deterministic_best_monotone_witness :
    (sa_init 1 (fun _ _ => 1) none 100).best_score ≤
      (sa_init 1 (fun _ _ => 1) none 100).best_score :=
  (deterministic_best_monotone 1 (fun _ _ => 1) none 0 100 (mkRat 99 100)
    ⟨fun _ => 0, fun _ => 0⟩).2.2 (sa_init 1 (fun _ _ => 1) none 100) (by rfl)

/-- C5: `best_score ≤ current_score` holds right after initialization
(best and current are the same state), is preserved by every normal
iteration in both modes, and holds at any normal return; moreover the
best fields are replaced only on strict improvement
(`best_score > tmp_score`), otherwise they are untouched. -/
theorem best_le_current_invariant (n : ℕ) (cm0 : ℕ → ℕ → ℚ)
    (p0 : Option (ℕ → ℕ)) (steps : ℕ) (temp cf : ℚ) (det : Bool) (tape : Tape) :
    (sa_init n cm0 p0 temp).best_score ≤ (sa_init n cm0 p0 temp).current_score ∧
    (∀ st st', st.best_score ≤ st.current_score →
      sa_step n det tape (calculate_weight_matrix n) st = some st' →
      st'.best_score ≤ st'.current_score) ∧
    (∀ st st', sa_step n det tape (calculate_weight_matrix n) st = some st' →
      (st'.best_score = st.best_score ∧ st'.best_cm = st.best_cm ∧
        st'.best_perm = st.best_perm) ∨ st'.best_score < st.best_score) ∧
    (∀ st, sa_run n cm0 p0 steps temp cf det tape = .ok st →
      st.best_score ≤ st.current_score) := by
  refine ⟨le_refl _,
    fun st st' hbc hs => sa_step_best_le n det tape _ st st' hbc hs,
    fun st st' hs => sa_step_best_strict n det tape _ st st' hs, ?_⟩
  intro st h
  obtain ⟨_, _, hl⟩ := sa_run_ok n cm0 p0 steps temp cf det tape st h
  exact sa_loop_preserve n det tape (calculate_weight_matrix n)
    (fun s => s.best_score ≤ s.current_score)
    (fun a b hp hs => sa_step_best_le n det tape _ a b hp hs)
    steps _ st hl (le_refl _)

/-- C5 witness: at the end of a normal zero-step run the invariant
holds. -/
theorem best_le_current_invariant_witness :
    (sa_init 1 (fun _ _ => 1) none 100).best_score ≤
      (sa_init 1 (fun _ _ => 1) none 100).current_score :=
  (best_le_current_invariant 1 (fun _ _ => 1) none 0 100 (mkRat 99 100) true
    ⟨fun _ => 0, fun _ => 0⟩).2.2.2 (sa_init 1 (fun _ _ => 1) none 100) (by rfl)

/-- C6: each normal non-deterministic iteration multiplies the
temperature by the literal constant `0.99` exactly once, each
deterministic iteration leaves it unchanged; the configured
`cooling_factor` is validated at entry (rejected outside `(0, 1)`) but
never used afterwards: two runs differing only in their (valid) cooling
factors are identical. -/
theorem cooling_factor_unused (n : ℕ) (cm0 : ℕ → ℕ → ℚ)
    (p0 : Option (ℕ → ℕ)) (steps : ℕ) (temp cf cf' : ℚ) (det : Bool)
    (tape : Tape) :
    (∀ st st', sa_step n false tape (calculate_weight_matrix n) st = some st' →
      st'.temp = st.temp * 0.99) ∧
    (∀ st st', sa_step n true tape (calculate_weight_matrix n) st = some st' →
      st'.temp = st.temp) ∧
    (¬temp ≤ 0 → (cf ≤ 0 ∨ 1 ≤ cf) →
      sa_run n cm0 p0 steps temp cf det tape = .error .invalid_cooling) ∧
    (¬(cf ≤ 0 ∨ 1 ≤ cf) → ¬(cf' ≤ 0 ∨ 1 ≤ cf') →
      sa_run n cm0 p0 steps temp cf det tape =
        sa_run n cm0 p0 steps temp cf' det tape) := by
  refine ⟨?_, ?_, ?_, ?_⟩
  · intro st st' hs
    have := sa_step_temp n false tape (calculate_weight_matrix n) st st' hs
    simpa using this
  · intro st st' hs
    have := sa_step_temp n true tape (calculate_weight_matrix n) st st' hs
    simpa using this
  · intro htemp hcf
    rw [sa_run, if_neg htemp, if_pos hcf]
  · intro hcf hcf'
    by_cases htemp : temp ≤ 0
    · rw [sa_run, if_pos htemp, sa_run, if_pos htemp]
    · rw [sa_run, if_neg htemp, if_neg hcf, sa_run, if_neg htemp, if_neg hcf']

/-- C6 witness: two concrete runs with distinct valid cooling factors
(`1/2` and `99/100`) coincide. -/
theorem cooling_factor_unused_witness :
    sa_run 1 (fun _ _ => 1) none 1 100 (mkRat 1 2) true
      ⟨fun _ => 0, fun _ => 0⟩ =
    sa_run 1 (fun _ _ => 1) none 1 100 (mkRat 99 100) true
      ⟨fun _ => 0, fun _ => 0⟩ :=
  (cooling_factor_unused 1 (fun _ _ => 1) none 1 100 (mkRat 1 2)
    (mkRat 99 100) true ⟨fun _ => 0, fun _ => 0⟩).2.2.2
    (by decide) (by decide)

end Clana
